import Mathlib

/-!
Verification of the command parsing and policy-validation engine of
mcp-secure-shell against its specification.

The definitions below are a shallow embedding of `src/command-validator.ts`
(and the helper `isRegexPattern` of `src/config/shell-command-config.ts`).
JavaScript strings are modelled as Lean `String` values (lists of
characters); the regular expressions of the source are translated into
explicit character scanners with the same matching semantics; fallible
lookups return `Option`.  `$`-substitution patterns of JavaScript's
`String.replace` replacement strings are not modelled (no replacement
string used by the source contains `$`).
-/

/-- The double-quote character (written via its code point to keep the
    file free of quote characters inside character literals). -/
def dquoteChar : Char := Char.ofNat 34

/-- The single-quote character. -/
def squoteChar : Char := Char.ofNat 39

/-- The left-brace character. -/
def lbraceChar : Char := Char.ofNat 123

/-- The right-brace character. -/
def rbraceChar : Char := Char.ofNat 125

/-- The right-parenthesis character. -/
def rparenChar : Char := Char.ofNat 41

/-- JavaScript's whitespace class `\s`, restricted to the ASCII whitespace
    characters that can occur in the commands under consideration. -/
def wsChar (c : Char) : Bool :=
  c == ' ' || c == '\t' || c == '\n' || c == '\r'

/-- Decimal rendering of a natural number, as JavaScript template
    interpolation prints an index.  Implemented here directly so that we can
    reason about the characters it produces. -/
def natToCharsAux : Nat → Nat → List Char → List Char
  | 0, _, acc => acc
  | fuel + 1, n, acc =>
    if n < 10 then Char.ofNat (48 + n) :: acc
    else natToCharsAux fuel (n / 10) (Char.ofNat (48 + n % 10) :: acc)

/-- Decimal rendering of a natural number (see `natToCharsAux`). -/
def natToString (n : Nat) : String :=
  String.mk (natToCharsAux (n + 1) n [])

/-- Embeds JavaScript `s.startsWith(pat)`. -/
def jsStartsWith (s pat : String) : Bool :=
  pat.toList.isPrefixOf s.toList

/-- Does `pat` occur as a contiguous run inside `l`? -/
def listInfix : List Char → List Char → Bool
  | pat, [] => pat.isEmpty
  | pat, c :: rest => pat.isPrefixOf (c :: rest) || listInfix pat rest

/-- Embeds JavaScript `s.includes(pat)`. -/
def includesStr (s pat : String) : Bool :=
  listInfix pat.toList s.toList

/-- Characters of a string with leading and trailing whitespace removed,
    embedding JavaScript `String.prototype.trim`. -/
def trimChars (cs : List Char) : List Char :=
  ((cs.dropWhile wsChar).reverse.dropWhile wsChar).reverse

/-- Embeds JavaScript `s.trim()`. -/
def jsTrim (s : String) : String :=
  String.mk (trimChars s.toList)

/-- The whitespace-separated tokens of a string: the result of
    `command.trim().split(/\s+/)` in the source (with the single empty
    string produced for blank input represented as the empty list; the
    source only ever reads `parts[0]` guarded by a falsiness check and
    `parts[1]` guarded by a length check, so the two representations
    agree at every use site). -/
def wsTokensAux : List Char → List Char → List String
  | cur, [] => if cur.isEmpty then [] else [String.mk cur.reverse]
  | cur, c :: rest =>
    if wsChar c then
      if cur.isEmpty then wsTokensAux [] rest
      else String.mk cur.reverse :: wsTokensAux [] rest
    else wsTokensAux (c :: cur) rest

/-- Whitespace-separated tokens of a string (see `wsTokensAux`). -/
def wsTokens (s : String) : List String :=
  wsTokensAux [] s.toList

/-- The base command of a command string: its first whitespace token, or
    the empty string for blank input (`parts[0]` in the source, which is
    `undefined`/falsy exactly when our value is the empty string). -/
def baseCommandOf (s : String) : String :=
  (wsTokens s).headD ""

/-! ## Data model: `shell-command-config.ts` -/

/-- A deny rule: either a bare command-name string or an object carrying a
    command name and an optional custom message
    (`DenyCommand` in `shell-command-config.ts`). -/
inductive DenyCommand where
  | str (command : String)
  | obj (command : String) (message : Option String)
deriving DecidableEq

/-- An allow rule: either a bare command-name string or an object with a
    command name, an optional `subCommands` allow-list and an optional
    `denySubCommands` deny-list (`AllowCommand` in
    `shell-command-config.ts`). -/
inductive AllowCommand where
  | str (command : String)
  | obj (command : String) (subCommands : Option (List String))
        (denySubCommands : Option (List String))
deriving DecidableEq

/-- The policy configuration (`ShellCommandConfig`).  The engine reads
    only `allowCommands`, `denyCommands` and `defaultErrorMessage`;
    `allowedDirectories` is kept for structural fidelity.  The process-wide
    `getConfig()` singleton of the source is modelled by passing the
    configuration explicitly to every function. -/
structure ShellCommandConfig where
  allowedDirectories : List String
  allowCommands : List AllowCommand
  denyCommands : List DenyCommand
  defaultErrorMessage : String
deriving DecidableEq

/-- The reason a command was blocked (`blockReason` of
    `ValidationResult`). -/
structure BlockReason where
  denyCommand : Option DenyCommand
  location : String
deriving DecidableEq

/-- The verdict produced for a validated command
    (`ValidationResult` in `command-validator.ts`). -/
structure ValidationResult where
  isValid : Bool
  message : String
  command : String
  baseCommand : String
  allowedCommands : List AllowCommand
  blockReason : Option BlockReason
deriving DecidableEq

/-- `isRegexPattern` of `shell-command-config.ts`: a rule command string
    denotes a regex pattern iff it starts with the literal text
    `regex:`. -/
def isRegexPattern (command : String) : Bool :=
  jsStartsWith command "regex:"

/-! ## Policy matcher: `command-validator.ts` -/

/-- `getCommandName`: the name of an allow rule. -/
def getCommandName (commandStr : AllowCommand) : String :=
  match commandStr with
  | .str s => s
  | .obj c _ _ => c

/-- `findCommandInAllowlist`: the first allow rule whose name equals the
    given command name. -/
def findCommandInAllowlist (commandName : String)
    (allowCommands : List AllowCommand) : Option AllowCommand :=
  allowCommands.find? (fun cmd => getCommandName cmd == commandName)

/-- `getDenyCommandName`: the name of a deny rule. -/
def getDenyCommandName (denyCmd : DenyCommand) : String :=
  match denyCmd with
  | .str s => s
  | .obj c _ => c

/-- `getDenyCommandMessage`: the custom message of a deny rule, or the
    configuration's default error message. -/
def getDenyCommandMessage (denyCommand : DenyCommand)
    (config : ShellCommandConfig) : String :=
  match denyCommand with
  | .obj _ (some msg) => msg
  | _ => config.defaultErrorMessage

/-- `COMMANDS_THAT_EXECUTE_OTHER_COMMANDS`: the exec-introducer set. -/
def COMMANDS_THAT_EXECUTE_OTHER_COMMANDS : List String :=
  ["xargs", "find"]

/-- `extractCommandFromXargs`: the first whitespace token after the
    literal token `xargs`, or the empty string. -/
def extractCommandFromXargs (command : String) : String :=
  let parts := wsTokens command
  match parts.findIdx? (fun part => part == "xargs") with
  | some xargsIndex => (parts.get? (xargsIndex + 1)).getD ""
  | none => ""

/-- One scan step for `extractCommandFromFindExec`: at the current
    position, try to match `\s+-exec(?:dir)?\s+(\S+)` and return the
    captured token.  The `\s+`/`\S+` repetitions are greedy and followed by
    characters they cannot match, so they always consume maximal runs. -/
def tryFindExecAt (cs : List Char) : Option (List Char) :=
  let ws := cs.takeWhile wsChar
  let r1 := cs.dropWhile wsChar
  if ws.isEmpty then none
  else if ("-exec".toList).isPrefixOf r1 then
    let r2 := r1.drop 5
    let tryTail := fun (r : List Char) =>
      let ws2 := r.takeWhile wsChar
      let r3 := r.dropWhile wsChar
      if ws2.isEmpty then none
      else
        let tok := r3.takeWhile (fun c => !wsChar c)
        if tok.isEmpty then none else some tok
    match (if ("dir".toList).isPrefixOf r2 then tryTail (r2.drop 3) else none) with
    | some tok => some tok
    | none => tryTail r2
  else none

/-- Leftmost match of the regex `/\s+-exec(?:dir)?\s+(\S+)/`
    (see `tryFindExecAt`). -/
def findExecScan : List Char → Option (List Char)
  | [] => none
  | c :: rest =>
    match tryFindExecAt (c :: rest) with
    | some tok => some tok
    | none => findExecScan rest

/-- `extractCommandFromFindExec`: the token following `-exec` or
    `-execdir`, or the empty string. -/
def extractCommandFromFindExec (command : String) : String :=
  match findExecScan command.toList with
  | some tok => String.mk tok
  | none => ""

/-- `validateCommandExecCommand`: for an exec-introducer base command,
    extract the command it would launch and check it against the deny
    list and the allow list.  Returns `none` when there is nothing to
    report (the source returns `null`). -/
def validateCommandExecCommand (baseCommand command : String)
    (config : ShellCommandConfig) (result : ValidationResult) :
    Option ValidationResult :=
  let extractedCommand :=
    if baseCommand == "xargs" then extractCommandFromXargs command
    else if baseCommand == "find" && includesStr command "-exec" then
      extractCommandFromFindExec command
    else ""
  if extractedCommand == "" then none
  else
    match config.denyCommands.find?
        (fun denyCmd => getDenyCommandName denyCmd == extractedCommand) with
    | some blacklistedCmd =>
      some { result with
        message := getDenyCommandMessage blacklistedCmd config,
        blockReason := some
          { denyCommand := some blacklistedCmd,
            location := "validateCommandWithArgs:blacklistedCommandInExec" } }
    | none =>
      match findCommandInAllowlist extractedCommand config.allowCommands with
      | some _ => none
      | none =>
        some { result with
          message := config.defaultErrorMessage ++ ": " ++ extractedCommand
            ++ " (in " ++ baseCommand ++ ")",
          blockReason := some
            { denyCommand := none,
              location := "validateCommandWithArgs:commandInExecNotInAllowlist" } }

/-- `validateCommandWithArgs`: validate a single command against the
    configuration — deny list first, then the exec-introducer check, then
    the allow list with its subcommand policies. -/
def validateCommandWithArgs (config : ShellCommandConfig)
    (command : String) : ValidationResult :=
  let parts := wsTokens command
  let baseCommand := parts.headD ""
  let result : ValidationResult := {
    isValid := false, command := command, baseCommand := baseCommand,
    message := "", allowedCommands := config.allowCommands,
    blockReason := none }
  if baseCommand == "" then
    { result with
      message := "empty command",
      blockReason := some
        { denyCommand := none,
          location := "validateCommandWithArgs:emptyCommand" } }
  else
    match config.denyCommands.find?
        (fun denyCmd => getDenyCommandName denyCmd == baseCommand) with
    | some blacklistedCmd =>
      { result with
        message := getDenyCommandMessage blacklistedCmd config,
        blockReason := some
          { denyCommand := some blacklistedCmd,
            location := "validateCommandWithArgs:blacklistedBaseCommand" } }
    | none =>
      match (if COMMANDS_THAT_EXECUTE_OTHER_COMMANDS.contains baseCommand
             then validateCommandExecCommand baseCommand command config result
             else none) with
      | some execCommandResult => execCommandResult
      | none =>
        match findCommandInAllowlist baseCommand config.allowCommands with
        | none =>
          { result with
            message := config.defaultErrorMessage ++ ": " ++ baseCommand,
            blockReason := some
              { denyCommand := none,
                location := "validateCommandWithArgs:commandNotInAllowlist" } }
        | some (.str _) =>
          { result with
            isValid := true,
            message := "allowed command(string config)" }
        | some (.obj _ subCmds denySubCmds) =>
          match parts with
          | _ :: subCommand :: _ =>
            if (match denySubCmds with
                | some l => l.contains subCommand
                | none => false) then
              { result with
                message := config.defaultErrorMessage ++ ": " ++ baseCommand
                  ++ " " ++ subCommand,
                blockReason := some
                  { denyCommand := some (.obj (baseCommand ++ " " ++ subCommand) none),
                    location := "validateCommandWithArgs:deniedSubcommand" } }
            else
              match subCmds with
              | some l =>
                let isValidSub := l.contains subCommand
                { result with
                  isValid := isValidSub,
                  message := if isValidSub then "allowed subcommand"
                    else config.defaultErrorMessage ++ ": " ++ baseCommand
                      ++ " " ++ subCommand,
                  blockReason := if isValidSub then none
                    else some
                      { denyCommand := some (.obj (baseCommand ++ " " ++ subCommand) none),
                        location := "validateCommandWithArgs:subcommandNotInAllowlist" } }
              | none =>
                { result with
                  isValid := true,
                  message := "allowed command(object config)" }
          | _ =>
            { result with
              isValid := true,
              message := "allowed command(object config)" }

/-! ## Redirection guard: `checkForOutputRedirection` -/

/-- Is `c` a quote character (the class `["']` of the redirection
    regex)? -/
def quoteClassChar (c : Char) : Bool :=
  c == dquoteChar || c == squoteChar

/-- Split a character list at the first character satisfying `p`,
    returning the characters before it, the character itself and the
    characters after it. -/
def splitAtPred (p : Char → Bool) : List Char → Option (List Char × Char × List Char)
  | [] => none
  | c :: rest =>
    if p c then some ([], c, rest)
    else
      match splitAtPred p rest with
      | some (pre, q, post) => some (c :: pre, q, post)
      | none => none

/-- The lookahead pattern `[^"']*["']\s*$` of `OUTPUT_REDIRECTION_REGEX`:
    it matches the remaining text exactly when that text contains a quote
    character and everything after the first quote character is
    whitespace. -/
def redirLookaheadMatches (rest : List Char) : Bool :=
  match splitAtPred quoteClassChar rest with
  | none => false
  | some (_, _, post) => post.all wsChar

/-- One attempt of `OUTPUT_REDIRECTION_REGEX` at the current position:
    match `\s+>>` (preferred) or `\s+>` followed by a failing lookahead,
    returning the matched text.  The greedy `\s+` is followed by `>` which
    it cannot match, so it always consumes the maximal whitespace run. -/
def redirTryAt (cs : List Char) : Option (List Char) :=
  let ws := cs.takeWhile wsChar
  let rest := cs.dropWhile wsChar
  if ws.isEmpty then none
  else
    match rest with
    | '>' :: '>' :: tail =>
      if redirLookaheadMatches tail then
        if redirLookaheadMatches ('>' :: tail) then none
        else some (ws ++ ['>'])
      else some (ws ++ ['>', '>'])
    | '>' :: tail =>
      if redirLookaheadMatches tail then none else some (ws ++ ['>'])
    | _ => none

/-- Leftmost match of `OUTPUT_REDIRECTION_REGEX` (see `redirTryAt`). -/
def redirScan : List Char → Option (List Char)
  | [] => none
  | c :: rest =>
    match redirTryAt (c :: rest) with
    | some m => some m
    | none => redirScan rest

/-- The first match of `commandString.match(OUTPUT_REDIRECTION_REGEX)`. -/
def outputRedirectionFirstMatch (s : String) : Option String :=
  (redirScan s.toList).map String.mk

/-- `checkForOutputRedirection`: an error message naming the detected
    redirection operator, or `none` when no unquoted output redirection is
    found. -/
def checkForOutputRedirection (commandString : String) : Option String :=
  match outputRedirectionFirstMatch commandString with
  | some m =>
    some ("Output redirection is not allowed. "
      ++ (if includesStr m ">>" then "append" else "overwrite")
      ++ " redirection operator (" ++ m ++ ") detected.")
  | none => none

/-! ## Tokenizer/extractor: `extractCommands` -/

/-- The quote placeholder written into the processed string
    (the template `__QUOTE(n)__` of the source). -/
def placeholderQuote (n : Nat) : String :=
  "__QUOTE" ++ natToString n ++ "__"

/-- The substitution placeholder written into the processed string
    (the template `__SUBST(n)__` of the source). -/
def placeholderSubst (n : Nat) : String :=
  "__SUBST" ++ natToString n ++ "__"

/-- Split a character list at every occurrence of `q`; the result is the
    list of (possibly empty) segments between occurrences and always has
    one more element than there are occurrences of `q`. -/
def splitAtAll (q : Char) : List Char → List (List Char)
  | [] => [[]]
  | c :: rest =>
    if c == q then [] :: splitAtAll q rest
    else
      match splitAtAll q rest with
      | s :: ss => (c :: s) :: ss
      | [] => [[c]]

/-- The global replacement of the regex `/q([^q]*)q/g` by quote
    placeholders, working on the segment list produced by `splitAtAll`:
    consecutive segment pairs are matched quote spans, a trailing unpaired
    quote is kept verbatim, and each matched span (with its quotes) is
    appended to the accumulator `acc` exactly as the source pushes it onto
    `quotedStrings`. -/
def pairQuotes (q : Char) : List (List Char) → List String → List Char × List String
  | [], acc => ([], acc)
  | [s], acc => (s, acc)
  | [s1, s2], acc => (s1 ++ q :: s2, acc)
  | s1 :: s2 :: s3 :: restSegs, acc =>
    let ph := placeholderQuote acc.length
    let r := pairQuotes q (s3 :: restSegs) (acc ++ [String.mk (q :: (s2 ++ [q]))])
    (s1 ++ (ph.toList ++ r.1), r.2)

/-- One pass of the quoted-span replacement of `extractCommands`:
    `processedCommand.replace(pattern, match => placeholder)` for the
    double- or single-quote pattern, threading the `quotedStrings`
    accumulator. -/
def jsQuoteReplace (q : Char) (cs : List Char) (acc : List String) :
    List Char × List String :=
  pairQuotes q (splitAtAll q cs) acc

/-- Split a character list at the first occurrence of `q`, returning the
    characters before and after it. -/
def splitAtChar (q : Char) : List Char → Option (List Char × List Char)
  | [] => none
  | c :: rest =>
    if c == q then some ([], rest)
    else
      match splitAtChar q rest with
      | some (pre, post) => some (c :: pre, post)
      | none => none

/-- All matches of `COMMAND_SUBSTITUTION_REGEX` (`/\$\([^)]+\)/g`),
    scanned left to right without overlap.  The fuel argument only pays
    for the non-structural recursion after a match; `findSubsts` supplies
    enough for any input, and every lemma below holds for every fuel. -/
def findSubstsAux : Nat → List Char → List String
  | 0, _ => []
  | fuel + 1, cs =>
    match cs with
    | [] => []
    | [_] => []
    | c1 :: c2 :: rest =>
      if c1 == '$' && c2 == '(' then
        match splitAtChar rparenChar rest with
        | some (inner, rest3) =>
          if inner.isEmpty then findSubstsAux fuel rest
          else String.mk (c1 :: c2 :: (inner ++ [rparenChar]))
            :: findSubstsAux fuel rest3
        | none => findSubstsAux fuel rest
      else findSubstsAux fuel (c2 :: rest)

/-- All command-substitution spans of a string
    (`processedCommand.match(COMMAND_SUBSTITUTION_REGEX) || []`). -/
def findSubsts (cs : List Char) : List String :=
  findSubstsAux cs.length cs

/-- Replace the first occurrence of `pat` in a character list by `repl`,
    embedding JavaScript `s.replace(pat, repl)` with string arguments. -/
def replaceFirst (pat repl : List Char) : List Char → List Char
  | [] => []
  | c :: rest =>
    if pat.isPrefixOf (c :: rest) then repl ++ (c :: rest).drop pat.length
    else c :: replaceFirst pat repl rest

/-- Is `c` one of the shell operator characters of
    `SHELL_OPERATORS_REGEX`?  (The `&&` and `||` alternatives of that
    regex are unreachable because the character class `[;|&]` is tried
    first at every position.) -/
def opChar (c : Char) : Bool :=
  c == ';' || c == '|' || c == '&' || c == '(' || c == ')'
    || c == lbraceChar || c == rbraceChar

/-- `String.prototype.split` on `SHELL_OPERATORS_REGEX` with its capture
    group: the segments between operator characters interleaved with the
    single-character operator separators themselves. -/
def splitOpsAux : List Char → List Char → List (List Char)
  | acc, [] => [acc.reverse]
  | acc, c :: rest =>
    if opChar c then acc.reverse :: [c] :: splitOpsAux [] rest
    else splitOpsAux (c :: acc) rest

/-- Split on shell operators, separators included (see `splitOpsAux`). -/
def splitOps (cs : List Char) : List (List Char) :=
  splitOpsAux [] cs

/-- Does the anchored operator regex
    `/^([;|&]|&&|\|\||\(|\)|\{|\})$/` match the whole part? -/
def isOpToken (part : String) : Bool :=
  part == ";" || part == "|" || part == "&" || part == "&&" || part == "||"
    || part == "(" || part == ")" || part == String.mk [lbraceChar]
    || part == String.mk [rbraceChar]

/-- Does the anchored placeholder regex `/^__SUBST\d+__$/` match the
    whole part? -/
def isSubstToken (part : String) : Bool :=
  let cs := part.toList
  if ("__SUBST".toList).isPrefixOf cs then
    let rest := cs.drop 7
    let ds := rest.takeWhile Char.isDigit
    !ds.isEmpty && rest.drop ds.length == ['_', '_']
  else false

/-- The quote-replacement phase of `extractCommands`: double-quoted spans
    first, then single-quoted spans, accumulating `quotedStrings`. -/
def processedOf (s : String) : List Char × List String :=
  let r1 := jsQuoteReplace dquoteChar s.toList []
  jsQuoteReplace squoteChar r1.1 r1.2

/-- The command-substitution spans found by `extractCommands` on the
    quote-processed string. -/
def substsOf (s : String) : List String :=
  findSubsts (processedOf s).1

/-- `extractCommands`, with explicit recursion fuel for the recursive
    resolution of command-substitution spans.  `extractCommands` supplies
    fuel that can never run out: the text inside a substitution span
    contains no closing parenthesis, so a nested call finds no further
    spans (see `extractCommandsAux_fuel_ge_two`). -/
def extractCommandsAux : Nat → String → List String
  | 0, _ => []
  | fuel + 1, commandString =>
    let pq := processedOf commandString
    let processedCommand := pq.1
    let quotedStrings := pq.2
    let substitutions := findSubsts processedCommand
    let innerCommands := substitutions.foldl
      (fun acc subst =>
        let innerCommand := jsTrim (String.mk ((subst.toList.drop 2).dropLast))
        if innerCommand == "" then acc
        else acc ++ extractCommandsAux fuel innerCommand) []
    let processed2 := substitutions.enum.foldl
      (fun cs2 p => replaceFirst p.2.toList (placeholderSubst p.1).toList cs2)
      processedCommand
    let parts := (((splitOps processed2).map String.mk).filter
      (fun p => !(p == ""))).map jsTrim
    let basicCommands := parts.filter
      (fun part => !isOpToken part && !isSubstToken part)
    let restored := basicCommands.map
      (fun cmd => quotedStrings.enum.foldl
        (fun c p => String.mk
          (replaceFirst (placeholderQuote p.1).toList p.2.toList c.toList))
        cmd)
    (innerCommands ++ restored).filter (fun c => !(c == ""))

/-- `extractCommands`: split a combined command string into its individual
    sub-commands. -/
def extractCommands (commandString : String) : List String :=
  extractCommandsAux (commandString.length + 1) commandString

/-- The recursion depth of the call tree of `extractCommandsAux` on a
    given input: one for the top-level call plus the deepest recursive
    resolution of a command-substitution span. -/
def extractDepthAux : Nat → String → Nat
  | 0, _ => 0
  | fuel + 1, s =>
    1 + (substsOf s).foldl
      (fun acc subst =>
        let innerCommand := jsTrim (String.mk ((subst.toList.drop 2).dropLast))
        if innerCommand == "" then acc
        else max acc (extractDepthAux fuel innerCommand)) 0

/-- The recursion depth of `extractCommands` on a given input. -/
def extractDepth (s : String) : Nat :=
  extractDepthAux (s.length + 1) s

/-- The inner commands contributed by the command-substitution spans of an
    input: for each span, the recursively extracted commands of its inner
    text (the first half of the output of `extractCommands`). -/
def innerCommandsOf (s : String) : List String :=
  ((substsOf s).foldl
    (fun acc subst =>
      let innerCommand := jsTrim (String.mk ((subst.toList.drop 2).dropLast))
      if innerCommand == "" then acc
      else acc ++ extractCommands innerCommand) []).filter (fun c => !(c == ""))

/-- The outer commands of an input: the operator-split segments of the
    quote- and substitution-processed string, operator and pure-placeholder
    segments removed and quoted content restored (the second half of the
    output of `extractCommands`). -/
def outerCommandsOf (s : String) : List String :=
  (((((splitOps ((substsOf s).enum.foldl
      (fun cs2 p => replaceFirst p.2.toList (placeholderSubst p.1).toList cs2)
      (processedOf s).1)).map String.mk).filter
        (fun p => !(p == ""))).map jsTrim).filter
      (fun part => !isOpToken part && !isSubstToken part)).map
    (fun cmd => (processedOf s).2.enum.foldl
      (fun c p => String.mk
        (replaceFirst (placeholderQuote p.1).toList p.2.toList c.toList))
      cmd) |>.filter (fun c => !(c == ""))

/-! ## Validation orchestrator: `validateMultipleCommands` -/

/-- The per-command loop of `validateMultipleCommands`: apply the
    redirection check and `validateCommandWithArgs` to each command in
    order and return the first failing verdict, or `none` when every
    command passes. -/
def validateCommandsLoop (config : ShellCommandConfig) :
    List String → Option ValidationResult
  | [] => none
  | cmd :: rest =>
    match checkForOutputRedirection cmd with
    | some cmdRedirectionError =>
      some { isValid := false, baseCommand := "", command := cmd,
             message := cmdRedirectionError,
             allowedCommands := config.allowCommands,
             blockReason := some
               { denyCommand := none,
                 location := "validateMultipleCommands:subcommandRedirectionError" } }
    | none =>
      let result := validateCommandWithArgs config cmd
      if result.isValid then validateCommandsLoop config rest else some result

/-- The sub-commands of an input that `validateMultipleCommands` actually
    checks: the extracted commands minus those starting with a brace
    followed by a space or with an opening parenthesis. -/
def commandsToCheckOf (commandString : String) : List String :=
  (extractCommands commandString).filter
    (fun cmd => !(jsStartsWith cmd (String.mk [lbraceChar, ' '])
      || jsStartsWith cmd "("))

/-- `validateMultipleCommands`: validate a combined command string —
    whole-string redirection check, extraction, group filtering, then the
    per-command loop. -/
def validateMultipleCommands (config : ShellCommandConfig)
    (commandString : String) : ValidationResult :=
  match checkForOutputRedirection commandString with
  | some redirectionError =>
    { isValid := false, baseCommand := "", command := commandString,
      message := redirectionError,
      allowedCommands := config.allowCommands,
      blockReason := some
        { denyCommand := none,
          location := "validateMultipleCommands:redirectionError" } }
  | none =>
    let commandsToCheck := commandsToCheckOf commandString
    if commandsToCheck.isEmpty then
      { isValid := false, baseCommand := "", command := commandString,
        message := "empty command",
        allowedCommands := config.allowCommands,
        blockReason := some
          { denyCommand := none,
            location := "validateMultipleCommands:emptyCommand" } }
    else
      match validateCommandsLoop config commandsToCheck with
      | some r => r
      | none =>
        { isValid := true, baseCommand := commandsToCheck.headD "",
          command := commandString,
          allowedCommands := config.allowCommands,
          message := "all commands are allowed", blockReason := none }

/-! ## Concrete configurations used by witnesses and counterexamples -/

/-- A small configuration mirroring the test configuration of the
    repository: simple allow rules, a scoped `git` rule with a
    `subCommands` allow-list, a scoped `npm` rule with a
    `denySubCommands` deny-list, and a literal `rm` deny rule with a
    custom message. -/
def cfgTest : ShellCommandConfig := {
  allowedDirectories := [],
  allowCommands := [.str "ls", .str "cat", .str "echo", .str "grep",
    .str "wc", .str "date", .str "xargs",
    .obj "git" (some ["status", "log"]) none,
    .obj "npm" none (some ["install", "uninstall", "update", "audit"])],
  denyCommands := [.obj "rm" (some "rm is dangerous")],
  defaultErrorMessage := "Command not allowed" }

/-- The pattern deny rule `regex:.*sudo.*` of the repository's default
    configuration, with its custom message abbreviated. -/
def sudoPatternRule : DenyCommand :=
  .obj "regex:.*sudo.*" (some "sudo is not allowed")

/-- A configuration whose only deny rule is the pattern rule
    `regex:.*sudo.*` and which allows `echo`. -/
def cfgSudo : ShellCommandConfig := {
  allowedDirectories := [],
  allowCommands := [.str "echo"],
  denyCommands := [sudoPatternRule],
  defaultErrorMessage := "Command not allowed" }

/-- Does the concrete regular expression `.*sudo.*` of the pattern rule
    match a string (JavaScript `RegExp.test` is unanchored, so on
    newline-free text this is exactly substring containment of
    `sudo`)? -/
def sudoRegexMatches (s : String) : Bool :=
  includesStr s "sudo"

/-- The configuration with every Pattern deny rule (command starting with
    `regex:`) removed, used to state that such rules are inert in
    `validateCommandWithArgs`. -/
def filterPatternRules (cfg : ShellCommandConfig) : ShellCommandConfig :=
  { cfg with
    denyCommands :=
      cfg.denyCommands.filter (fun d => !(isRegexPattern (getDenyCommandName d))) }

/-! ## Lemmas -/

theorem string_mk_toList (l : List Char) : (String.mk l).toList = l := rfl

theorem string_mk_ne_empty (c : Char) (l : List Char) :
    String.mk (c :: l) ≠ "" := by
  intro h
  have : (c :: l) = ([] : List Char) := congrArg String.toList h
  exact List.noConfusion this

theorem wsTokensAux_ne_empty (cs : List Char) :
    ∀ cur t, t ∈ wsTokensAux cur cs → t ≠ "" := by
  induction cs with
  | nil =>
    intro cur t ht
    simp only [wsTokensAux] at ht
    split at ht
    · exact absurd ht (List.not_mem_nil t)
    · rename_i hcur
      rcases List.mem_singleton.mp ht with rfl
      match cur, hcur with
      | c :: cur', _ =>
        cases hrev : (c :: cur').reverse with
        | nil => exact absurd (List.reverse_eq_nil_iff.mp hrev) (by simp)
        | cons d l => exact string_mk_ne_empty d l
  | cons c rest ih =>
    intro cur t ht
    simp only [wsTokensAux] at ht
    split at ht
    · split at ht
      · exact ih [] t ht
      · rename_i hcur
        rcases List.mem_cons.mp ht with rfl | h2
        · match cur, hcur with
          | d :: cur', _ =>
            cases hrev : (d :: cur').reverse with
            | nil => exact absurd (List.reverse_eq_nil_iff.mp hrev) (by simp)
            | cons e l => exact string_mk_ne_empty e l
        · exact ih [] t h2
    · exact ih (c :: cur) t ht

theorem wsTokens_ne_empty (s : String) : ∀ t ∈ wsTokens s, t ≠ "" := by
  intro t ht
  exact wsTokensAux_ne_empty s.toList [] t ht

theorem baseCommand_ne_empty (cmd : String) (base : String) (rest : List String)
    (h : wsTokens cmd = base :: rest) : base ≠ "" := by
  apply wsTokens_ne_empty cmd
  rw [h]
  exact List.mem_cons_self base rest

theorem validateCommandExecCommand_isValid (b c : String)
    (cfg : ShellCommandConfig) (r r' : ValidationResult)
    (h : validateCommandExecCommand b c cfg r = some r') :
    r'.isValid = r.isValid := by
  simp only [validateCommandExecCommand] at h
  repeat' split at h
  all_goals
    first
      | exact Option.noConfusion h
      | (cases h; rfl)

theorem dropWhile_eq_nil_of_all {p : Char → Bool} {l : List Char}
    (h : ∀ c ∈ l, p c = true) : l.dropWhile p = [] := by
  induction l with
  | nil => rfl
  | cons c rest ih =>
    simp only [List.dropWhile, h c (List.mem_cons_self c rest)]
    exact ih (fun x hx => h x (List.mem_cons_of_mem c hx))

theorem mem_trimChars {c : Char} {l : List Char} (h : c ∈ trimChars l) : c ∈ l := by
  simp only [trimChars, List.mem_reverse] at h
  have h1 := List.Sublist.mem h (List.dropWhile_sublist _)
  rw [List.mem_reverse] at h1
  exact List.Sublist.mem h1 (List.dropWhile_sublist _)

theorem trimChars_eq_nil_of_ws {l : List Char} (h : ∀ c ∈ l, wsChar c = true) :
    trimChars l = [] := by
  simp only [trimChars, dropWhile_eq_nil_of_all h, List.reverse_nil, List.dropWhile_nil]

theorem splitAtChar_none {q : Char} {cs : List Char}
    (h : ∀ c ∈ cs, (c == q) = false) : splitAtChar q cs = none := by
  induction cs with
  | nil => rfl
  | cons c rest ih =>
    simp only [splitAtChar, h c (List.mem_cons_self c rest), Bool.false_eq_true, if_false]
    rw [ih (fun x hx => h x (List.mem_cons_of_mem c hx))]

theorem splitAtChar_parts {q : Char} {cs pre post : List Char}
    (h : splitAtChar q cs = some (pre, post)) :
    cs = pre ++ q :: post ∧ ∀ c ∈ pre, (c == q) = false := by
  induction cs generalizing pre with
  | nil => exact Option.noConfusion h
  | cons c rest ih =>
    simp only [splitAtChar] at h
    split at h
    · rename_i hcq
      cases h
      exact ⟨by simp [eq_of_beq hcq], fun x hx => absurd hx (List.not_mem_nil x)⟩
    · rename_i hcq
      split at h
      · rename_i pre' post' heq
        cases h
        obtain ⟨h1, h2⟩ := ih heq
        constructor
        · rw [List.cons_append, ← h1]
        · intro x hx
          rcases List.mem_cons.mp hx with rfl | hx2
          · exact Bool.eq_false_iff.mpr (fun hb => hcq (by rw [hb]))
          · exact h2 x hx2
      · exact Option.noConfusion h

theorem splitAtAll_mem {q : Char} {cs : List Char} :
    ∀ seg ∈ splitAtAll q cs, ∀ c ∈ seg, c ∈ cs := by
  induction cs with
  | nil =>
    intro seg hseg c hc
    simp only [splitAtAll, List.mem_singleton] at hseg
    rw [hseg] at hc
    exact absurd hc (List.not_mem_nil c)
  | cons d rest ih =>
    intro seg hseg c hc
    simp only [splitAtAll] at hseg
    split at hseg
    · rcases List.mem_cons.mp hseg with rfl | h2
      · exact absurd hc (List.not_mem_nil c)
      · exact List.mem_cons_of_mem d (ih seg h2 c hc)
    · rename_i hdq
      revert hseg
      split
      · rename_i s ss heq
        intro hseg
        rcases List.mem_cons.mp hseg with rfl | h2
        · rcases List.mem_cons.mp hc with rfl | h3
          · exact List.mem_cons_self c rest
          · have : s ∈ splitAtAll q rest := by rw [heq]; exact List.mem_cons_self s ss
            exact List.mem_cons_of_mem d (ih s this c h3)
        · have : seg ∈ splitAtAll q rest := by rw [heq]; exact List.mem_cons_of_mem s h2
          exact List.mem_cons_of_mem d (ih seg this c hc)
      · rename_i heq
        intro hseg
        rcases List.mem_singleton.mp hseg ▸ hc with h3
        rcases List.mem_cons.mp h3 with rfl | h4
        · exact List.mem_cons_self c rest
        · exact absurd h4 (List.not_mem_nil c)

theorem splitAtAll_no_q {q : Char} {cs : List Char}
    (h : ∀ c ∈ cs, (c == q) = false) : splitAtAll q cs = [cs] := by
  induction cs with
  | nil => rfl
  | cons c rest ih =>
    simp only [splitAtAll, h c (List.mem_cons_self c rest), Bool.false_eq_true, if_false]
    rw [ih (fun x hx => h x (List.mem_cons_of_mem c hx))]

theorem natToCharsAux_mem {c : Char} :
    ∀ fuel n acc, c ∈ natToCharsAux fuel n acc →
      c ∈ acc ∨ ∃ k, k < 10 ∧ c = Char.ofNat (48 + k) := by
  intro fuel
  induction fuel with
  | zero => intro n acc h; exact Or.inl h
  | succ f ih =>
    intro n acc h
    simp only [natToCharsAux] at h
    split at h
    · rcases List.mem_cons.mp h with rfl | h2
      · exact Or.inr ⟨n, by assumption, rfl⟩
      · exact Or.inl h2
    · rcases ih _ _ h with h2 | h2
      · rcases List.mem_cons.mp h2 with rfl | h3
        · exact Or.inr ⟨n % 10, Nat.mod_lt n (by decide), rfl⟩
        · exact Or.inl h3
      · exact Or.inr h2

theorem digit_ne_rparen : ∀ k, k < 10 → (Char.ofNat (48 + k) == rparenChar) = false := by
  decide

theorem natToString_mem {c : Char} {n : Nat} (h : c ∈ (natToString n).toList) :
    ∃ k, k < 10 ∧ c = Char.ofNat (48 + k) := by
  simp only [natToString, string_mk_toList] at h
  rcases natToCharsAux_mem (n + 1) n [] h with h2 | h2
  · exact absurd h2 (List.not_mem_nil c)
  · exact h2

theorem quoteLit_no_rparen : ∀ c ∈ "__QUOTE".toList, (c == rparenChar) = false := by
  decide

theorem substLit_no_rparen : ∀ c ∈ "__SUBST".toList, (c == rparenChar) = false := by
  decide

theorem underscores_no_rparen : ∀ c ∈ "__".toList, (c == rparenChar) = false := by
  decide

theorem placeholderQuote_no_rparen {n : Nat} :
    ∀ c ∈ (placeholderQuote n).toList, (c == rparenChar) = false := by
  intro c hc
  have hc' : c ∈ ("__QUOTE".toList ++ ((natToString n).toList ++ "__".toList)) := by
    simpa only [placeholderQuote, String.toList, String.data_append] using hc
  rcases List.mem_append.mp hc' with h1 | h1
  · exact quoteLit_no_rparen c h1
  · rcases List.mem_append.mp h1 with h2 | h2
    · obtain ⟨k, hk, rfl⟩ := natToString_mem h2
      exact digit_ne_rparen k hk
    · exact underscores_no_rparen c h2

theorem placeholderSubst_no_rparen {n : Nat} :
    ∀ c ∈ (placeholderSubst n).toList, (c == rparenChar) = false := by
  intro c hc
  have hc' : c ∈ ("__SUBST".toList ++ ((natToString n).toList ++ "__".toList)) := by
    simpa only [placeholderSubst, String.toList, String.data_append] using hc
  rcases List.mem_append.mp hc' with h1 | h1
  · exact substLit_no_rparen c h1
  · rcases List.mem_append.mp h1 with h2 | h2
    · obtain ⟨k, hk, rfl⟩ := natToString_mem h2
      exact digit_ne_rparen k hk
    · exact underscores_no_rparen c h2

theorem pairQuotes_no_rparen {q : Char} (hq : (q == rparenChar) = false) :
    ∀ (segs : List (List Char)) (acc : List String),
      (∀ seg ∈ segs, ∀ c ∈ seg, (c == rparenChar) = false) →
      ∀ c ∈ (pairQuotes q segs acc).1, (c == rparenChar) = false := by
  intro segs acc
  induction segs, acc using pairQuotes.induct q with
  | case1 acc =>
    intro _ c hc
    exact absurd hc (List.not_mem_nil c)
  | case2 s acc =>
    intro h c hc
    exact h s (List.mem_singleton_self s) c hc
  | case3 s1 s2 acc =>
    intro h c hc
    simp only [pairQuotes, List.mem_append, List.mem_cons] at hc
    rcases hc with h1 | rfl | h1
    · exact h s1 (by simp) c h1
    · exact hq
    · exact h s2 (by simp) c h1
  | case4 s1 s2 s3 restSegs acc ih =>
    intro h c hc
    simp only [pairQuotes, List.mem_append] at hc
    rcases hc with h1 | h1 | h1
    · exact h s1 (by simp) c h1
    · exact placeholderQuote_no_rparen c h1
    · refine ih ?_ c h1
      intro seg hseg
      exact h seg (by simp only [List.mem_cons] at hseg ⊢; tauto)

theorem jsQuoteReplace_no_rparen {q : Char} (hq : (q == rparenChar) = false)
    {cs : List Char} (h : ∀ c ∈ cs, (c == rparenChar) = false)
    (acc : List String) :
    ∀ c ∈ (jsQuoteReplace q cs acc).1, (c == rparenChar) = false := by
  apply pairQuotes_no_rparen hq
  intro seg hseg c hc
  exact h c (splitAtAll_mem seg hseg c hc)

theorem processedOf_no_rparen {s : String}
    (h : ∀ c ∈ s.toList, (c == rparenChar) = false) :
    ∀ c ∈ (processedOf s).1, (c == rparenChar) = false := by
  simp only [processedOf]
  apply jsQuoteReplace_no_rparen (by decide)
  exact jsQuoteReplace_no_rparen (by decide) h []

theorem findSubstsAux_nil {fuel : Nat} {cs : List Char}
    (h : ∀ c ∈ cs, (c == rparenChar) = false) :
    findSubstsAux fuel cs = [] := by
  induction fuel generalizing cs with
  | zero => rfl
  | succ f ih =>
    cases cs with
    | nil => rfl
    | cons c1 rest1 =>
      cases rest1 with
      | nil => rfl
      | cons c2 rest =>
        have hrest : ∀ c ∈ rest, (c == rparenChar) = false := by
          intro x hx
          exact h x (by simp [hx])
        simp only [findSubstsAux]
        split
        · rw [splitAtChar_none hrest]
          exact ih hrest
        · exact ih (fun x hx => h x (List.mem_cons_of_mem c1 hx))

theorem findSubstsAux_shape {fuel : Nat} {cs : List Char} {subst : String}
    (hmem : subst ∈ findSubstsAux fuel cs) :
    ∃ innerC, subst = String.mk ('$' :: '(' :: (innerC ++ [rparenChar]))
      ∧ innerC ≠ [] ∧ ∀ c ∈ innerC, (c == rparenChar) = false := by
  induction fuel generalizing cs with
  | zero => exact absurd hmem (List.not_mem_nil subst)
  | succ f ih =>
    cases cs with
    | nil => exact absurd hmem (List.not_mem_nil subst)
    | cons c1 rest1 =>
      cases rest1 with
      | nil => exact absurd hmem (List.not_mem_nil subst)
      | cons c2 rest =>
        simp only [findSubstsAux] at hmem
        split at hmem
        · rename_i hc12
          obtain ⟨hc1, hc2⟩ := Bool.and_eq_true_iff.mp hc12
          split at hmem
          · rename_i inner rest3 heq
            split at hmem
            · exact ih hmem
            · rename_i hne
              rcases List.mem_cons.mp hmem with rfl | h2
              · refine ⟨inner, ?_, ?_, ?_⟩
                · rw [eq_of_beq hc1, eq_of_beq hc2]
                · intro hnil
                  rw [hnil] at hne
                  exact hne rfl
                · exact (splitAtChar_parts heq).2
              · exact ih h2
          · exact ih hmem
        · exact ih hmem

theorem substsOf_nil_of_no_rparen {s : String}
    (h : ∀ c ∈ s.toList, (c == rparenChar) = false) : substsOf s = [] := by
  simp only [substsOf, findSubsts]
  exact findSubstsAux_nil (processedOf_no_rparen h)

theorem subst_inner_no_rparen {s : String} {subst : String}
    (hmem : subst ∈ substsOf s) :
    ∀ c ∈ (jsTrim (String.mk ((subst.toList.drop 2).dropLast))).toList,
      (c == rparenChar) = false := by
  obtain ⟨innerC, rfl, _, hinner⟩ := findSubstsAux_shape hmem
  intro c hc
  simp only [string_mk_toList, jsTrim] at hc ⊢
  rw [show ((('$' :: '(' :: (innerC ++ [rparenChar])).drop 2).dropLast) = innerC by
    simp] at hc
  exact hinner c (mem_trimChars hc)

theorem substsOf_inner_nil {s : String} {subst : String}
    (hmem : subst ∈ substsOf s) :
    substsOf (jsTrim (String.mk ((subst.toList.drop 2).dropLast))) = [] :=
  substsOf_nil_of_no_rparen (subst_inner_no_rparen hmem)

theorem extractCommandsAux_congr {s : String} (h : substsOf s = [])
    (f g : Nat) : extractCommandsAux (f + 1) s = extractCommandsAux (g + 1) s := by
  have h' : findSubsts (processedOf s).1 = [] := h
  simp only [extractCommandsAux, h', List.foldl_nil, List.enum_nil]

theorem extractCommandsAux_eq_extractCommands {s : String}
    (h : substsOf s = []) (f : Nat) :
    extractCommandsAux (f + 1) s = extractCommands s := by
  simp only [extractCommands]
  exact extractCommandsAux_congr h f s.length

theorem foldl_inner_congr (s : String) (k : Nat) (hk : s.length = k + 1)
    (l : List String)
    (h : ∀ subst ∈ l,
      substsOf (jsTrim (String.mk ((subst.toList.drop 2).dropLast))) = []) :
    ∀ acc : List String,
    l.foldl (fun acc subst =>
      let innerCommand := jsTrim (String.mk ((subst.toList.drop 2).dropLast))
      if innerCommand == "" then acc
      else acc ++ extractCommandsAux s.length innerCommand) acc
    = l.foldl (fun acc subst =>
      let innerCommand := jsTrim (String.mk ((subst.toList.drop 2).dropLast))
      if innerCommand == "" then acc
      else acc ++ extractCommands innerCommand) acc := by
  induction l with
  | nil => intro acc; rfl
  | cons subst rest ih =>
    intro acc
    simp only [List.foldl_cons]
    have hstep : (if (jsTrim (String.mk ((subst.toList.drop 2).dropLast)) == "") = true
          then acc
          else acc ++ extractCommandsAux s.length
            (jsTrim (String.mk ((subst.toList.drop 2).dropLast))))
        = (if (jsTrim (String.mk ((subst.toList.drop 2).dropLast)) == "") = true
          then acc
          else acc ++ extractCommands
            (jsTrim (String.mk ((subst.toList.drop 2).dropLast)))) := by
      split
      · rfl
      · rw [hk]
        exact congrArg (acc ++ ·)
          (extractCommandsAux_eq_extractCommands
            (h subst (List.mem_cons_self subst rest)) k)
    rw [hstep]
    exact ih (fun x hx => h x (List.mem_cons_of_mem subst hx)) _

set_option maxHeartbeats 1000000 in
theorem extractCommands_decomp (s : String) :
    extractCommands s = innerCommandsOf s ++ outerCommandsOf s := by
  show ((substsOf s).foldl (fun acc subst =>
      let innerCommand := jsTrim (String.mk ((subst.toList.drop 2).dropLast))
      if innerCommand == "" then acc
      else acc ++ extractCommandsAux s.length innerCommand) []
    ++ (((((splitOps ((substsOf s).enum.foldl
        (fun cs2 p => replaceFirst p.2.toList (placeholderSubst p.1).toList cs2)
        (processedOf s).1)).map String.mk).filter
          (fun p => !(p == ""))).map jsTrim).filter
        (fun part => !isOpToken part && !isSubstToken part)).map
      (fun cmd => (processedOf s).2.enum.foldl
        (fun c p => String.mk
          (replaceFirst (placeholderQuote p.1).toList p.2.toList c.toList))
        cmd)).filter (fun c => !(c == ""))
    = innerCommandsOf s ++ outerCommandsOf s
  rw [List.filter_append]
  by_cases hemp : substsOf s = []
  · rw [innerCommandsOf, outerCommandsOf, hemp]
    rfl
  · have hne : s ≠ "" := by
      intro h0
      rw [h0] at hemp
      exact hemp rfl
    have hlen : s.length ≠ 0 := by
      intro h0
      apply hne
      cases s with
      | mk data =>
        cases data with
        | nil => rfl
        | cons a l => exact absurd h0 (by simp [String.length])
    obtain ⟨k, hk⟩ := Nat.exists_eq_succ_of_ne_zero hlen
    rw [foldl_inner_congr s k hk (substsOf s)
      (fun subst hmem => substsOf_inner_nil hmem) []]
    rfl

theorem extractDepthAux_le_one {fuel : Nat} {t : String}
    (h : substsOf t = []) : extractDepthAux fuel t ≤ 1 := by
  cases fuel with
  | zero => exact Nat.zero_le 1
  | succ f =>
    simp only [extractDepthAux, h, List.foldl_nil]
    exact Nat.le_refl 1

theorem foldl_depth_le {fuel : Nat} {l : List String}
    (h : ∀ subst ∈ l,
      extractDepthAux fuel
        (jsTrim (String.mk ((subst.toList.drop 2).dropLast))) ≤ 1) :
    ∀ acc, acc ≤ 1 →
      l.foldl (fun acc subst =>
        let innerCommand := jsTrim (String.mk ((subst.toList.drop 2).dropLast))
        if innerCommand == "" then acc
        else max acc (extractDepthAux fuel innerCommand)) acc ≤ 1 := by
  induction l with
  | nil => intro acc hacc; exact hacc
  | cons subst rest ih =>
    intro acc hacc
    simp only [List.foldl_cons]
    apply ih (fun x hx => h x (List.mem_cons_of_mem subst hx))
    split
    · exact hacc
    · exact Nat.max_le.mpr ⟨hacc, h subst (List.mem_cons_self subst rest)⟩

theorem extractDepth_le_two (s : String) : extractDepth s ≤ 2 := by
  simp only [extractDepth, extractDepthAux]
  have hb : (substsOf s).foldl (fun acc subst =>
      if (jsTrim (String.mk ((subst.toList.drop 2).dropLast)) == "") = true then acc
      else max acc (extractDepthAux s.length
        (jsTrim (String.mk ((subst.toList.drop 2).dropLast))))) 0 ≤ 1 := by
    apply foldl_depth_le
    · intro subst hmem
      exact extractDepthAux_le_one (substsOf_inner_nil hmem)
    · exact Nat.zero_le 1
  omega

theorem foldl_inner_congr2 (f g : Nat) (l : List String)
    (h : ∀ subst ∈ l,
      substsOf (jsTrim (String.mk ((subst.toList.drop 2).dropLast))) = []) :
    ∀ acc : List String,
    l.foldl (fun acc subst =>
      let innerCommand := jsTrim (String.mk ((subst.toList.drop 2).dropLast))
      if innerCommand == "" then acc
      else acc ++ extractCommandsAux (f + 1) innerCommand) acc
    = l.foldl (fun acc subst =>
      let innerCommand := jsTrim (String.mk ((subst.toList.drop 2).dropLast))
      if innerCommand == "" then acc
      else acc ++ extractCommandsAux (g + 1) innerCommand) acc := by
  induction l with
  | nil => intro acc; rfl
  | cons subst rest ih =>
    intro acc
    simp only [List.foldl_cons]
    have hstep : (if (jsTrim (String.mk ((subst.toList.drop 2).dropLast)) == "") = true
          then acc
          else acc ++ extractCommandsAux (f + 1)
            (jsTrim (String.mk ((subst.toList.drop 2).dropLast))))
        = (if (jsTrim (String.mk ((subst.toList.drop 2).dropLast)) == "") = true
          then acc
          else acc ++ extractCommandsAux (g + 1)
            (jsTrim (String.mk ((subst.toList.drop 2).dropLast)))) := by
      split
      · rfl
      · exact congrArg (acc ++ ·)
          (extractCommandsAux_congr (h subst (List.mem_cons_self subst rest)) f g)
    rw [hstep]
    exact ih (fun x hx => h x (List.mem_cons_of_mem subst hx)) _

set_option maxHeartbeats 1000000 in
theorem extractCommandsAux_fuel_stable (f g : Nat) (s : String) :
    extractCommandsAux (f + 2) s = extractCommandsAux (g + 2) s := by
  conv_lhs => rw [extractCommandsAux]
  conv_rhs => rw [extractCommandsAux]
  rw [foldl_inner_congr2 f g (findSubsts (processedOf s).1)
    (fun subst hmem => substsOf_inner_nil hmem) []]

theorem extractCommandsAux_fuel_ge_two (s : String) :
    extractCommands s = extractCommandsAux 2 s := by
  cases s with
  | mk data =>
    cases data with
    | nil => rfl
    | cons a l =>
      have hl : (String.mk (a :: l)).length = l.length + 1 := by
        simp [String.length]
      rw [extractCommands, hl]
      exact extractCommandsAux_fuel_stable l.length 0 (String.mk (a :: l))

theorem wsChar_not_special {c : Char} (h : wsChar c = true) :
    (c == dquoteChar) = false ∧ (c == squoteChar) = false
    ∧ (c == rparenChar) = false ∧ opChar c = false := by
  have h4 : c = ' ' ∨ c = '\t' ∨ c = '\n' ∨ c = '\r' := by
    simp only [wsChar, Bool.or_eq_true, beq_iff_eq] at h
    tauto
  rcases h4 with rfl | rfl | rfl | rfl <;> decide

theorem splitOpsAux_no_op {cs : List Char} (h : ∀ c ∈ cs, opChar c = false) :
    ∀ acc, splitOpsAux acc cs = [acc.reverse ++ cs] := by
  induction cs with
  | nil => intro acc; simp [splitOpsAux]
  | cons c rest ih =>
    intro acc
    simp only [splitOpsAux, h c (List.mem_cons_self c rest), Bool.false_eq_true, if_false]
    rw [ih (fun x hx => h x (List.mem_cons_of_mem c hx)) (c :: acc)]
    simp

theorem processedOf_ws {s : String} (h : ∀ c ∈ s.toList, wsChar c = true) :
    processedOf s = (s.toList, []) := by
  have hq : ∀ c ∈ s.toList, (c == dquoteChar) = false :=
    fun c hc => (wsChar_not_special (h c hc)).1
  have hs : ∀ c ∈ s.toList, (c == squoteChar) = false :=
    fun c hc => (wsChar_not_special (h c hc)).2.1
  simp only [processedOf, jsQuoteReplace, splitAtAll_no_q hq, pairQuotes,
    splitAtAll_no_q hs]

theorem extractCommands_blank {s : String}
    (h : ∀ c ∈ s.toList, wsChar c = true) : extractCommands s = [] := by
  by_cases hs : s = ""
  · rw [hs]
    rfl
  · have hnp : ∀ c ∈ s.toList, (c == rparenChar) = false :=
      fun c hc => (wsChar_not_special (h c hc)).2.2.1
    have hop : ∀ c ∈ s.toList, opChar c = false :=
      fun c hc => (wsChar_not_special (h c hc)).2.2.2
    have hsubst : findSubsts s.toList = [] := findSubstsAux_nil hnp
    have hsplit : splitOps s.toList = [s.toList] := splitOpsAux_no_op hop []
    have hmk : String.mk s.toList = s := rfl
    have hsne : (s == "") = false := beq_eq_false_iff_ne.mpr hs
    have htrim : jsTrim s = "" := by
      simp only [jsTrim, trimChars_eq_nil_of_ws h]
    rw [extractCommands]
    conv_lhs => rw [extractCommandsAux]
    rw [processedOf_ws h]
    simp only [hsubst, List.foldl_nil, List.enum_nil, splitOps, hsplit]
    rw [show splitOpsAux [] s.toList = [s.toList] from hsplit]
    simp only [List.map_cons, List.map_nil, hmk, List.filter_cons, hsne,
      Bool.not_false, if_true, List.filter_nil, htrim]
    rfl

theorem find?_filter_not_regex (l : List DenyCommand) (nm : String)
    (h : isRegexPattern nm = false) :
    (l.filter (fun d => !(isRegexPattern (getDenyCommandName d)))).find?
        (fun d => getDenyCommandName d == nm)
      = l.find? (fun d => getDenyCommandName d == nm) := by
  induction l with
  | nil => rfl
  | cons d t ih =>
    cases hq : isRegexPattern (getDenyCommandName d) with
    | true =>
      have hpred : (getDenyCommandName d == nm) = false := by
        cases hbeq : getDenyCommandName d == nm with
        | false => rfl
        | true =>
          rw [eq_of_beq hbeq] at hq
          rw [hq] at h
          exact Bool.noConfusion h
      simp only [List.filter_cons, hq, Bool.not_true, Bool.false_eq_true, if_false,
        List.find?_cons, hpred]
      exact ih
    | false =>
      simp only [List.filter_cons, hq, Bool.not_false, if_true, List.find?_cons]
      cases hbeq : getDenyCommandName d == nm with
      | true => rfl
      | false => exact ih

theorem validateCommandExecCommand_no_regex (b cmd : String)
    (cfg : ShellCommandConfig) (r : ValidationResult)
    (hx : isRegexPattern (extractCommandFromXargs cmd) = false)
    (hf : isRegexPattern (extractCommandFromFindExec cmd) = false) :
    validateCommandExecCommand b cmd (filterPatternRules cfg) r
    = validateCommandExecCommand b cmd cfg r := by
  simp only [filterPatternRules]
  simp only [validateCommandExecCommand]
  split
  · rename_i hbx
    split
    · rfl
    · rw [find?_filter_not_regex _ _ hx]
      split
      · rfl
      · rfl
  · split
    · rename_i hbf
      split
      · rfl
      · rw [find?_filter_not_regex _ _ hf]
        split
        · rfl
        · rfl
    · rfl

theorem validateCommandsLoop_none (cfg : ShellCommandConfig) (l : List String)
    (h : ∀ c ∈ l, checkForOutputRedirection c = none
      ∧ (validateCommandWithArgs cfg c).isValid = true) :
    validateCommandsLoop cfg l = none := by
  induction l with
  | nil => rfl
  | cons c rest ih =>
    have hc := h c (List.mem_cons_self c rest)
    simp only [validateCommandsLoop, hc.1, hc.2, if_true]
    exact ih (fun x hx => h x (List.mem_cons_of_mem c hx))

/-! ## Claim theorems -/

/-- Claim C1: `validateCommandWithArgs` evaluates deny rules before allow
    rules: a base command matched by a deny rule yields `isValid = false`
    citing that rule regardless of the allow list; when no allow rule's
    name equals the base command the verdict is `isValid = false`, with
    the policy's `defaultErrorMessage` (annotated with the base command)
    whenever the base command is not an exec-introducer; and an
    `isValid = true` verdict is never produced for a base command absent
    from `allowCommands` (fail-closed). -/
theorem c1_deny_precedes_allow_fail_closed (cfg : ShellCommandConfig) (cmd : String) :
    (∀ d, baseCommandOf cmd ≠ "" →
      cfg.denyCommands.find? (fun dc => getDenyCommandName dc == baseCommandOf cmd) = some d →
      validateCommandWithArgs cfg cmd = {
        isValid := false, message := getDenyCommandMessage d cfg,
        command := cmd, baseCommand := baseCommandOf cmd,
        allowedCommands := cfg.allowCommands,
        blockReason := some
          { denyCommand := some d,
            location := "validateCommandWithArgs:blacklistedBaseCommand" } })
    ∧ (findCommandInAllowlist (baseCommandOf cmd) cfg.allowCommands = none →
        (validateCommandWithArgs cfg cmd).isValid = false)
    ∧ (baseCommandOf cmd ≠ "" →
       cfg.denyCommands.find? (fun dc => getDenyCommandName dc == baseCommandOf cmd) = none →
       COMMANDS_THAT_EXECUTE_OTHER_COMMANDS.contains (baseCommandOf cmd) = false →
       findCommandInAllowlist (baseCommandOf cmd) cfg.allowCommands = none →
       validateCommandWithArgs cfg cmd = {
         isValid := false,
         message := cfg.defaultErrorMessage ++ ": " ++ baseCommandOf cmd,
         command := cmd, baseCommand := baseCommandOf cmd,
         allowedCommands := cfg.allowCommands,
         blockReason := some
           { denyCommand := none,
             location := "validateCommandWithArgs:commandNotInAllowlist" } })
    ∧ ((validateCommandWithArgs cfg cmd).isValid = true →
        (findCommandInAllowlist (baseCommandOf cmd) cfg.allowCommands).isSome = true) := by
  have key : findCommandInAllowlist (baseCommandOf cmd) cfg.allowCommands = none →
      (validateCommandWithArgs cfg cmd).isValid = false := by
    intro hallow
    simp only [validateCommandWithArgs, baseCommandOf] at *
    split
    · rfl
    · split
      · rfl
      · split
        · rename_i execRes heq
          split at heq
          · exact (validateCommandExecCommand_isValid _ _ _ _ _ heq).trans rfl
          · exact Option.noConfusion heq
        · split
          · rfl
          · rename_i heq
            rw [hallow] at heq
            exact Option.noConfusion heq
          · rename_i heq
            rw [hallow] at heq
            exact Option.noConfusion heq
  refine ⟨?_, key, ?_, ?_⟩
  · intro d hb hfind
    have hb' : (((wsTokens cmd).headD "") == "") = false := by
      rw [beq_eq_false_iff_ne]
      exact hb
    simp only [validateCommandWithArgs, baseCommandOf] at *
    simp only [hb', Bool.false_eq_true, if_false, hfind]
  · intro hb hden hni hallow
    have hb' : (((wsTokens cmd).headD "") == "") = false := by
      rw [beq_eq_false_iff_ne]
      exact hb
    simp only [validateCommandWithArgs, baseCommandOf] at *
    simp only [hb', Bool.false_eq_true, if_false, hden, hni, hallow]
  · intro hv
    cases h : findCommandInAllowlist (baseCommandOf cmd) cfg.allowCommands with
    | none =>
      rw [key h] at hv
      exact Bool.noConfusion hv
    | some a => rfl

/-- Witness for C1: on the test configuration, a denied base command
    (`rm`) is rejected citing its rule before the allow list is consulted,
    and a command absent from the allow list (`cp`) is rejected
    fail-closed with the annotated default message. -/
theorem c1_witness :
    validateCommandWithArgs cfgTest "rm -rf /" = {
      isValid := false, message := "rm is dangerous",
      command := "rm -rf /", baseCommand := "rm",
      allowedCommands := cfgTest.allowCommands,
      blockReason := some
        { denyCommand := some (.obj "rm" (some "rm is dangerous")),
          location := "validateCommandWithArgs:blacklistedBaseCommand" } }
    ∧ (validateCommandWithArgs cfgTest "cp a b").isValid = false
    ∧ validateCommandWithArgs cfgTest "cp a b" = {
      isValid := false, message := "Command not allowed: cp",
      command := "cp a b", baseCommand := "cp",
      allowedCommands := cfgTest.allowCommands,
      blockReason := some
        { denyCommand := none,
          location := "validateCommandWithArgs:commandNotInAllowlist" } } := by
  refine ⟨?_, ?_, ?_⟩
  · exact (c1_deny_precedes_allow_fail_closed cfgTest "rm -rf /").1
      (.obj "rm" (some "rm is dangerous")) (by decide) (by rfl)
  · exact (c1_deny_precedes_allow_fail_closed cfgTest "cp a b").2.1 (by rfl)
  · exact (c1_deny_precedes_allow_fail_closed cfgTest "cp a b").2.2.1
      (by decide) (by rfl) (by rfl) (by rfl)

/-- Claim C2, counterexample: the claim as stated is false on the code.
    With a policy that allows `echo` and whose only deny rule is the
    Pattern rule `regex:.*sudo.*`, the raw command text
    `echo foo sudo bar` matches the rule's regular expression (for this
    concrete pattern, matching is containment of `sudo`), yet both
    `validateCommandWithArgs` and `validateMultipleCommands` return
    `isValid = true`: the validator never runs Pattern rules' regexes. -/
theorem c2_counterexample :
    isRegexPattern (getDenyCommandName sudoPatternRule) = true
    ∧ sudoPatternRule ∈ cfgSudo.denyCommands
    ∧ sudoRegexMatches "echo foo sudo bar" = true
    ∧ (validateCommandWithArgs cfgSudo "echo foo sudo bar").isValid = true
    ∧ (validateMultipleCommands cfgSudo "echo foo sudo bar").isValid = true :=
  ⟨rfl, List.mem_singleton_self sudoPatternRule, rfl, rfl, rfl⟩

/-- Claim C2, amended: in `validateCommandWithArgs` deny matching is
    literal string equality only, so Pattern deny rules (rules whose
    command starts with `regex:`) are inert: deleting every Pattern rule
    from the policy never changes the verdict, for any command whose base
    token and exec-extracted tokens are not themselves `regex:`-prefixed
    strings.  (The regex-against-whole-text behaviour survives only in the
    legacy `findDenyCommandInBlacklist` helper of an earlier revision,
    which the current validator does not call.) -/
theorem c2_pattern_rules_inert (cfg : ShellCommandConfig) (cmd : String)
    (hb : isRegexPattern (baseCommandOf cmd) = false)
    (hx : isRegexPattern (extractCommandFromXargs cmd) = false)
    (hf : isRegexPattern (extractCommandFromFindExec cmd) = false) :
    validateCommandWithArgs (filterPatternRules cfg) cmd
      = validateCommandWithArgs cfg cmd := by
  simp only [baseCommandOf] at hb
  simp only [validateCommandWithArgs]
  split
  · rfl
  · rw [show (filterPatternRules cfg).denyCommands
        = cfg.denyCommands.filter (fun d => !(isRegexPattern (getDenyCommandName d)))
        from rfl,
      find?_filter_not_regex _ _ hb]
    split
    · rfl
    · rw [show (filterPatternRules cfg).allowCommands = cfg.allowCommands from rfl]
      rw [validateCommandExecCommand_no_regex _ _ _ _ hx hf]
      split
      · rfl
      · split
        · rfl
        · rfl
        · split
          · split
            · rfl
            · split
              · rfl
              · rfl
          · rfl

/-- Witness for C2's amended theorem: removing the Pattern rule
    `regex:.*sudo.*` from the sudo policy leaves the verdict of
    `echo foo sudo bar` unchanged. -/
theorem c2_witness :
    validateCommandWithArgs (filterPatternRules cfgSudo) "echo foo sudo bar"
      = validateCommandWithArgs cfgSudo "echo foo sudo bar" :=
  c2_pattern_rules_inert cfgSudo "echo foo sudo bar" rfl rfl rfl

/-- Claim C3: the redirection guard ignores a `>` that appears only inside
    a quoted span (so `echo "a > b"` passes the guard and validates as
    valid when `echo` is allowed), rejects an unquoted whitespace-preceded
    redirection (`ls > out.txt` is invalid with a message mentioning
    `overwrite`), and in general the message produced for a detected
    operator says `append` exactly when the matched operator text contains
    `>>` and `overwrite` when it is a bare `>`. -/
theorem c3_redirection_guard :
    checkForOutputRedirection "echo \"a > b\"" = none
    ∧ (validateMultipleCommands cfgTest "echo \"a > b\"").isValid = true
    ∧ (validateMultipleCommands cfgTest "ls > out.txt").isValid = false
    ∧ (validateMultipleCommands cfgTest "ls > out.txt").message
      = "Output redirection is not allowed. overwrite redirection operator ( >) detected."
    ∧ (∀ s m, outputRedirectionFirstMatch s = some m →
        checkForOutputRedirection s
          = some ("Output redirection is not allowed. "
            ++ (if includesStr m ">>" then "append" else "overwrite")
            ++ " redirection operator (" ++ m ++ ") detected.")) := by
  refine ⟨rfl, rfl, rfl, rfl, ?_⟩
  intro s m h
  simp only [checkForOutputRedirection, h]

/-- Witness for C3's general clause: on `echo hi >> log.txt` the first
    match is ` >>` and the produced message classifies it as `append`. -/
theorem c3_witness :
    checkForOutputRedirection "echo hi >> log.txt"
      = some "Output redirection is not allowed. append redirection operator ( >>) detected." :=
  (c3_redirection_guard).2.2.2.2 "echo hi >> log.txt" " >>" rfl

/-- Claim C4: for every policy that allows `xargs`, does not deny `xargs`
    itself, and denies `rm`, validating `xargs rm` yields
    `isValid = false` with the `rm` rule's message, `blockReason` citing
    that rule with the exec-introducer location tag, and the verdict's
    `command`/`baseCommand` fields still naming the outer `xargs`
    command. -/
theorem c4_xargs_rm_denied_citing_rm (cfg : ShellCommandConfig) (r : DenyCommand)
    (_hallow : (findCommandInAllowlist "xargs" cfg.allowCommands).isSome = true)
    (hnodeny : cfg.denyCommands.find? (fun dc => getDenyCommandName dc == "xargs") = none)
    (hrm : cfg.denyCommands.find? (fun dc => getDenyCommandName dc == "rm") = some r) :
    validateCommandWithArgs cfg "xargs rm" = {
      isValid := false, message := getDenyCommandMessage r cfg,
      command := "xargs rm", baseCommand := "xargs",
      allowedCommands := cfg.allowCommands,
      blockReason := some
        { denyCommand := some r,
          location := "validateCommandWithArgs:blacklistedCommandInExec" } } := by
  have h1 : wsTokens "xargs rm" = ["xargs", "rm"] := rfl
  simp only [validateCommandWithArgs, h1, List.headD]
  simp only [show (("xargs" : String) == "") = false from rfl, Bool.false_eq_true, if_false]
  simp only [hnodeny]
  simp only [show COMMANDS_THAT_EXECUTE_OTHER_COMMANDS.contains "xargs" = true from rfl,
    if_true]
  simp only [validateCommandExecCommand]
  simp only [show (("xargs" : String) == "xargs") = true from rfl, if_true]
  simp only [show extractCommandFromXargs "xargs rm" = "rm" from rfl]
  simp only [show (("rm" : String) == "") = false from rfl, Bool.false_eq_true, if_false]
  simp only [hrm]

/-- Witness for C4: on the test configuration, `xargs rm` is denied with
    the `rm` rule's custom message and the exec-introducer location tag,
    attributed to the outer `xargs` command. -/
theorem c4_witness :
    validateCommandWithArgs cfgTest "xargs rm" = {
      isValid := false, message := "rm is dangerous",
      command := "xargs rm", baseCommand := "xargs",
      allowedCommands := cfgTest.allowCommands,
      blockReason := some
        { denyCommand := some (.obj "rm" (some "rm is dangerous")),
          location := "validateCommandWithArgs:blacklistedCommandInExec" } } :=
  c4_xargs_rm_denied_citing_rm cfgTest (.obj "rm" (some "rm is dangerous")) rfl rfl rfl

/-- Claim C5: for a command with a second token whose base command (not a
    deny-rule match and not an exec-introducer) matches a structured allow
    rule: a rule carrying only a `denySubCommands` list rejects exactly
    the listed subcommands and allows all others, and a rule carrying only
    a `subCommands` list allows exactly the listed subcommands and rejects
    all others. -/
theorem c5_subcommand_policies (cfg : ShellCommandConfig) (cmd base sub : String)
    (rest : List String) (c : String) (subCmds denySubCmds : Option (List String))
    (htok : wsTokens cmd = base :: sub :: rest)
    (hden : cfg.denyCommands.find? (fun dc => getDenyCommandName dc == base) = none)
    (hni : COMMANDS_THAT_EXECUTE_OTHER_COMMANDS.contains base = false)
    (hallow : findCommandInAllowlist base cfg.allowCommands
      = some (.obj c subCmds denySubCmds)) :
    (∀ dl, denySubCmds = some dl → subCmds = none →
      (validateCommandWithArgs cfg cmd).isValid = !(dl.contains sub))
    ∧ (∀ al, denySubCmds = none → subCmds = some al →
      (validateCommandWithArgs cfg cmd).isValid = (al.contains sub)) := by
  have hb : base ≠ "" := baseCommand_ne_empty cmd base (sub :: rest) htok
  have hb' : (base == "") = false := by
    rw [beq_eq_false_iff_ne]
    exact hb
  constructor
  · intro dl hd hs
    subst hd
    subst hs
    simp only [validateCommandWithArgs, htok, List.headD, hb', Bool.false_eq_true,
      if_false, hden, hni, hallow]
    cases hcont : dl.contains sub with
    | true => simp only [hcont, if_true, Bool.not_true]
    | false => simp only [hcont, Bool.false_eq_true, if_false, Bool.not_false]
  · intro al hd hs
    subst hd
    subst hs
    simp only [validateCommandWithArgs, htok, List.headD, hb', Bool.false_eq_true,
      if_false, hden, hni, hallow]

/-- Witness for C5: with `git` scoped to `subCommands = [status, log]`,
    `git status` is valid and `git push` invalid; with `npm` scoped to
    `denySubCommands = [install, ...]`, `npm install` is invalid and
    `npm run` valid. -/
theorem c5_witness :
    (validateCommandWithArgs cfgTest "git status").isValid = true
    ∧ (validateCommandWithArgs cfgTest "git push").isValid = false
    ∧ (validateCommandWithArgs cfgTest "npm install").isValid = false
    ∧ (validateCommandWithArgs cfgTest "npm run").isValid = true := by
  refine ⟨?_, ?_, ?_, ?_⟩
  · exact (c5_subcommand_policies cfgTest "git status" "git" "status" [] "git"
      (some ["status", "log"]) none rfl rfl rfl rfl).2 ["status", "log"] rfl rfl
  · exact (c5_subcommand_policies cfgTest "git push" "git" "push" [] "git"
      (some ["status", "log"]) none rfl rfl rfl rfl).2 ["status", "log"] rfl rfl
  · exact (c5_subcommand_policies cfgTest "npm install" "npm" "install" [] "npm"
      none (some ["install", "uninstall", "update", "audit"]) rfl rfl rfl rfl).1
      ["install", "uninstall", "update", "audit"] rfl rfl
  · exact (c5_subcommand_policies cfgTest "npm run" "npm" "run" [] "npm"
      none (some ["install", "uninstall", "update", "audit"]) rfl rfl rfl rfl).1
      ["install", "uninstall", "update", "audit"] rfl rfl

/-- Claim C6: `extractCommands` splits `a; b; c` into exactly
    `[a, b, c]`, and a semicolon inside a double-quoted span is not a
    split point — the quoted content is restored verbatim, so
    `echo "a;b"` is returned as the single command `echo "a;b"`. -/
theorem c6_extract_split_and_quotes :
    extractCommands "a; b; c" = ["a", "b", "c"]
    ∧ extractCommands "echo \"a;b\"" = ["echo \"a;b\""] :=
  ⟨rfl, rfl⟩

/-- Claim C7, counterexample: the claim's "empty only for blank input" is
    false on the code — `;;` is not blank (its trim is non-empty) yet
    `extractCommands ";;"` is the empty list, because operator-only
    tokens are discarded by the operator filter. -/
theorem c7_counterexample :
    extractCommands ";;" = [] ∧ jsTrim ";;" ≠ "" :=
  ⟨rfl, by decide⟩

/-- Claim C7, amended: `extractCommands` returns the empty list for every
    blank/whitespace-only input, but blankness is not necessary: inputs
    consisting solely of shell operator characters (such as `&&`) also
    yield the empty list. -/
theorem c7_blank_yields_empty :
    (∀ s : String, (∀ c ∈ s.toList, wsChar c = true) → extractCommands s = [])
    ∧ extractCommands "&&" = [] :=
  ⟨fun _ h => extractCommands_blank h, rfl⟩

/-- Witness for C7's amended theorem: a whitespace-only input yields the
    empty list. -/
theorem c7_witness : extractCommands "   " = [] :=
  c7_blank_yields_empty.1 "   " (by decide)

/-- Claim C8: the recursive resolution of command-substitution spans in
    `extractCommands` never exceeds a fixed depth well below 32 — the
    call-tree depth is at most 2 for every input (the text inside a
    `$(...)` span contains no closing parenthesis, so a nested call finds
    no further spans), and consequently recursion fuel 2 computes
    `extractCommands` exactly on every input, bounding the work on
    pathological nested-substitution input. -/
theorem c8_substitution_depth_bounded :
    (∀ s : String, extractDepth s ≤ 32)
    ∧ (∀ s : String, extractCommands s = extractCommandsAux 2 s) :=
  ⟨fun s => le_trans (extractDepth_le_two s) (by norm_num),
   fun s => extractCommandsAux_fuel_ge_two s⟩

/-- Claim C9, counterexample: for the input `$(date)` the recursively
    extracted inner command is emitted, but the outer command (which
    after replacement consists solely of the placeholder `__SUBST0__`) is
    NOT emitted — the placeholder filter drops it — refuting the claim
    that the outer command is always emitted. -/
theorem c9_counterexample :
    extractCommands "$(date)" = ["date"]
    ∧ "__SUBST0__" ∉ extractCommands "$(date)" :=
  ⟨rfl, by decide⟩

/-- Claim C9, amended: `extractCommands` always places the recursively
    extracted inner commands of `$(...)` spans before every sub-command
    derived from the outer string, and the outer command is emitted with
    the span replaced by a placeholder unless the resulting outer segment
    is exactly the placeholder (a pure substitution command), which the
    placeholder filter drops. -/
theorem c9_inner_before_outer :
    (∀ s : String, extractCommands s = innerCommandsOf s ++ outerCommandsOf s)
    ∧ extractCommands "echo $(date)" = ["date", "echo __SUBST0__"]
    ∧ extractCommands "echo $(rm -rf /); ls" = ["rm -rf /", "echo __SUBST0__", "ls"] :=
  ⟨extractCommands_decomp, rfl, rfl⟩

/-- Claim C10: in `validateMultipleCommands`, every extracted sub-command
    whose text begins with a brace-space or an opening parenthesis is
    removed before the per-command phase and therefore receives no
    redirection, deny or allow check; the aggregate verdict is
    `isValid = true` as soon as the whole-string redirection check and
    all remaining sub-commands pass, with no condition whatsoever on the
    skipped sub-commands — in particular even if a skipped sub-command's
    base command matched a deny rule. -/
theorem c10_group_commands_skipped (cfg : ShellCommandConfig) (s : String)
    (hred : checkForOutputRedirection s = none)
    (hne : (commandsToCheckOf s).isEmpty = false)
    (hall : ∀ c ∈ commandsToCheckOf s, checkForOutputRedirection c = none
      ∧ (validateCommandWithArgs cfg c).isValid = true) :
    (validateMultipleCommands cfg s).isValid = true
    ∧ ∀ c ∈ extractCommands s,
        (jsStartsWith c (String.mk [lbraceChar, ' ']) || jsStartsWith c "(") = true →
        c ∉ commandsToCheckOf s := by
  constructor
  · simp only [validateMultipleCommands, hred, hne, Bool.false_eq_true, if_false,
      validateCommandsLoop_none cfg _ hall]
  · intro c _hc hgrp hmem
    simp only [commandsToCheckOf, List.mem_filter] at hmem
    rw [hgrp] at hmem
    exact Bool.noConfusion hmem.2

/-- Witness for C10: the aggregate verdict for `ls -la` is valid via the
    per-command phase over the filtered command list. -/
theorem c10_witness : (validateMultipleCommands cfgTest "ls -la").isValid = true :=
  (c10_group_commands_skipped cfgTest "ls -la" rfl rfl (by decide)).1
